import Mathlib

/-!
Verification of the pi-mem memory extension (src/lib.ts and the extension entry
point). JavaScript strings are modelled as lists of characters (`Str`); every
function below is a direct translation of the corresponding TypeScript
function, keeping its name where possible.
-/

namespace PiMem

/-- JavaScript strings, modelled as lists of characters (one element per
UTF-16 code unit of the source string; all literals used here are in the BMP,
where code units and code points coincide). -/
abbrev Str := List Char

/-- Convert a Lean string literal to the `Str` model. -/
def chars (s : String) : Str := s.data

/-- The characters matched by `.` in a JavaScript regular expression without
the `s` flag: everything except the four line terminators
(U+000A, U+000D, U+2028, U+2029). -/
def dotChar (c : Char) : Bool :=
  c ≠ '\n' && c ≠ '\r' && c ≠ Char.ofNat 0x2028 && c ≠ Char.ofNat 0x2029

/-- Whitespace test used to model `\s` and `String.prototype.trim`. -/
def isWsChar (c : Char) : Bool := c.isWhitespace

/-- Model of `String.prototype.split(sep)` for a single-character separator:
the (possibly empty) pieces between occurrences of the separator.
`split` on the empty string yields one empty piece. -/
def splitOnChar (sep : Char) : Str → List Str
  | [] => [[]]
  | c :: cs =>
    if c = sep then [] :: splitOnChar sep cs
    else
      match splitOnChar sep cs with
      | [] => [[c]]
      | h :: t => (c :: h) :: t

/-- Model of `content.split("\n")`. -/
def splitLines : Str → List Str := splitOnChar '\n'

/-- Model of `lines.join("\n")`. -/
def joinLines : List Str → Str
  | [] => []
  | [l] => l
  | l :: l' :: ls => l ++ '\n' :: joinLines (l' :: ls)

/-- Model of `String.prototype.trimEnd`. -/
def trimEnd (s : Str) : Str := (s.reverse.dropWhile isWsChar).reverse

/-- Model of `String.prototype.trimStart`. -/
def trimStart (s : Str) : Str := s.dropWhile isWsChar

/-- Model of `String.prototype.trim`. -/
def trim (s : Str) : Str := trimStart (trimEnd s)

/-- Model of `String.prototype.toLowerCase` (character-wise lowering; exact
for the ASCII data handled by this program). -/
def lowerStr (s : Str) : Str := s.map Char.toLower

/-- Model of `hay.includes(needle)` (substring containment). -/
def hasInfix (hay needle : Str) : Bool :=
  match hay with
  | [] => needle.isEmpty
  | _ :: cs => needle.isPrefixOf hay || hasInfix cs needle

/-- Model of `name.endsWith(suffx)`. -/
def endsWithStr (s suffx : Str) : Bool := suffx.isSuffixOf s

/-- Model of `path.join(a, b)` for the normalization-free segment shapes this
program produces (no trailing separators, no `..` segments). -/
def pjoin (a b : Str) : Str := a ++ '/' :: b

-- --- Scratchpad codec (src/lib.ts, parseScratchpad / serializeScratchpad) ---

/-- One checklist item (interface `ScratchpadItem` in src/lib.ts). -/
structure ScratchpadItem where
  done : Bool
  text : Str
  meta : Str
deriving DecidableEq, Repr

/-- Model of matching a line against `/^- \[([ xX])\] (.+)$/`: on success
returns the bracket character and the captured item body. `(.+)` requires a
non-empty body made of `dotChar` characters, and `$` anchors at the end of the
line. -/
def matchChecklistLine : Str → Option (Char × Str)
  | c1 :: c2 :: c3 :: c :: c5 :: c6 :: rest =>
    if c1 = '-' ∧ c2 = ' ' ∧ c3 = '[' ∧ c5 = ']' ∧ c6 = ' ' ∧
        (c = ' ' ∨ c = 'x' ∨ c = 'X') ∧ rest ≠ [] ∧ rest.all dotChar then
      some (c, rest)
    else none
  | _ => none

/-- Model of `line.match(/^<!--.*-->$/) !== null`: the line is `<!--`, then
any (possibly empty) run of `dotChar` characters, then `-->`. -/
def matchCommentLine (l : Str) : Bool :=
  match l with
  | c1 :: c2 :: c3 :: c4 :: rest =>
    c1 == '<' && c2 == '!' && c3 == '-' && c4 == '-' &&
      (match rest.reverse with
       | d1 :: d2 :: d3 :: midRev =>
         d1 == '>' && d2 == '-' && d3 == '-' && midRev.all dotChar
       | _ => false)
  | _ => false

/-- The line-scanning loop of `parseScratchpad`: `prev` is the previous line
(`lines[i-1]`) when one exists, modelling the `i > 0` lookback. -/
def parseLinesAux (prev : Option Str) : List Str → List ScratchpadItem
  | [] => []
  | l :: ls =>
    (match matchChecklistLine l with
     | some (c, rest) =>
       let meta : Str :=
         match prev with
         | some p => if matchCommentLine p then p else []
         | none => []
       [⟨c.toLower == 'x', rest, meta⟩]
     | none => []) ++ parseLinesAux (some l) ls

/-- Model of `parseScratchpad` (src/lib.ts lines 91-110). -/
def parseScratchpad (content : Str) : List ScratchpadItem :=
  parseLinesAux none (splitLines content)

/-- The serialized checklist line of one item:
`- ${checkbox} ${item.text}`. -/
def checklistLineOf (it : ScratchpadItem) : Str :=
  chars "- " ++ (if it.done then chars "[x]" else chars "[ ]") ++ ' ' :: it.text

/-- The serialized lines contributed by one item: its meta line when
non-empty, then the checklist line. -/
def itemLines (it : ScratchpadItem) : List Str :=
  (if it.meta ≠ [] then [it.meta] else []) ++ [checklistLineOf it]

/-- The serialized lines of a whole item list (the loop body pushes of
`serializeScratchpad`). -/
def linesOfItems : List ScratchpadItem → List Str
  | [] => []
  | it :: rest => itemLines it ++ linesOfItems rest

/-- Model of `serializeScratchpad` (src/lib.ts lines 112-122): header line,
blank line, the item lines, joined with newlines, plus a trailing newline. -/
def serializeScratchpad (items : List ScratchpadItem) : Str :=
  joinLines ([chars "# Scratchpad", []] ++ linesOfItems items) ++ ['\n']

example : parseScratchpad (chars "- [ ] Fix bug\n- [x] Done task") =
    [⟨false, chars "Fix bug", []⟩, ⟨true, chars "Done task", []⟩] := by decide

example : parseScratchpad (chars "") = [] := by decide

example : parseScratchpad (chars "# Scratchpad\n\n") = [] := by decide

example : serializeScratchpad [] = chars "# Scratchpad\n\n" := by decide

example :
    parseScratchpad
      (chars "<!-- 2026-02-18 10:00:00 [abc12345] -->\n- [ ] Task with meta") =
    [⟨false, chars "Task with meta",
      chars "<!-- 2026-02-18 10:00:00 [abc12345] -->"⟩] := by decide

-- --- Configuration resolver (src/lib.ts, buildConfig) ---

/-- The environment keys read by `buildConfig`; `none` models an unset
variable (JavaScript `undefined`, so that `??` falls through to the default,
while a set-but-empty variable is `some []`). -/
structure EnvMap where
  HOME : Option Str
  PI_MEMORY_DIR : Option Str
  PI_DAILY_DIR : Option Str
  PI_CONTEXT_FILES : Option Str
  PI_AUTOCOMMIT : Option Str
deriving DecidableEq

/-- Resolved configuration (interface `MemoryConfig` in src/lib.ts). -/
structure MemoryConfig where
  memoryDir : Str
  memoryFile : Str
  scratchpadFile : Str
  dailyDir : Str
  notesDir : Str
  contextFiles : List Str
  autocommit : Bool
deriving DecidableEq

/-- Model of `buildConfig` (src/lib.ts lines 23-41). -/
def buildConfig (env : EnvMap) : MemoryConfig :=
  let memoryDir := env.PI_MEMORY_DIR.getD
    (pjoin (pjoin (pjoin (env.HOME.getD (chars "~")) (chars ".pi"))
      (chars "agent")) (chars "memory"))
  let dailyDir := env.PI_DAILY_DIR.getD (pjoin memoryDir (chars "daily"))
  let contextFiles :=
    (((splitOnChar ',' (env.PI_CONTEXT_FILES.getD [])).map trim).filter
      (fun f => f ≠ []))
  let autocommit := decide (env.PI_AUTOCOMMIT = some (chars "1") ∨
    env.PI_AUTOCOMMIT = some (chars "true"))
  ⟨memoryDir, pjoin memoryDir (chars "MEMORY.md"),
    pjoin memoryDir (chars "SCRATCHPAD.md"), dailyDir,
    pjoin memoryDir (chars "notes"), contextFiles, autocommit⟩

/-- Model of `dailyPath` (src/lib.ts lines 73-75). -/
def dailyPath (dailyDir date : Str) : Str := pjoin dailyDir (date ++ chars ".md")

-- --- Memory context builder (src/lib.ts, buildMemoryContext) ---
-- `readFileSafe` is modelled by a pure lookup `fs : Str → Option Str`
-- (`none` = the read throws, i.e. the file is absent); the wall-clock values
-- `todayStr()` / `yesterdayStr()` are passed as the `today` / `yesterday`
-- parameters. `ensureDirs` only creates directories and never changes file
-- contents, so it has no effect on the pure model.

/-- The guarded section push used for every file except the scratchpad: a
section is produced when the file is readable and its trimmed content is
non-blank (`if (content?.trim())`). -/
def sectionIfContent (title : Str) : Option Str → Option Str
  | some s =>
    if trim s ≠ [] then
      some (chars "## " ++ title ++ chars "\n\n" ++ trim s)
    else none
  | none => none

/-- The scratchpad section push (src/lib.ts lines 143-149): requires the file
to be readable and non-blank, keeps only the items with `done == false`, and
emits a section only when at least one open item remains; the section body is
the re-serialization of the open items. -/
def scratchpadSection : Option Str → Option Str
  | some s =>
    if trim s ≠ [] then
      let openItems := (parseScratchpad s).filter (fun i => !i.done)
      if openItems ≠ [] then
        some (chars "## SCRATCHPAD.md (working context)\n\n" ++
          serializeScratchpad openItems)
      else none
    else none
  | none => none

/-- All qualifying sections, in the order `buildMemoryContext` pushes them:
configured context files, long-term file, scratchpad, today, yesterday. -/
def contextSections (fs : Str → Option Str) (config : MemoryConfig)
    (today yesterday : Str) : List Str :=
  config.contextFiles.filterMap
      (fun name => sectionIfContent name (fs (pjoin config.memoryDir name))) ++
    (sectionIfContent (chars "MEMORY.md (long-term)")
      (fs config.memoryFile)).toList ++
    (scratchpadSection (fs config.scratchpadFile)).toList ++
    (sectionIfContent (chars "Daily log: " ++ today ++ chars " (today)")
      (fs (dailyPath config.dailyDir today))).toList ++
    (sectionIfContent (chars "Daily log: " ++ yesterday ++ chars " (yesterday)")
      (fs (dailyPath config.dailyDir yesterday))).toList

/-- Model of `sections.join(sep)` for the fixed separator. -/
def joinSections : List Str → Str
  | [] => []
  | [s] => s
  | s :: s' :: rest => s ++ chars "\n\n---\n\n" ++ joinSections (s' :: rest)

/-- Model of `buildMemoryContext` (src/lib.ts lines 126-169). -/
def buildMemoryContext (fs : Str → Option Str) (config : MemoryConfig)
    (today yesterday : Str) : Str :=
  let sections := contextSections fs config today yesterday
  if sections = [] then []
  else chars "# Memory\n\n" ++ joinSections sections

-- --- Session scanner (src/lib.ts, scanSession) ---
-- A session log is modelled as its list of lines, each line given by the
-- outcome of `JSON.parse`: `none` when parsing throws, `some entry` with the
-- fields the scanner reads otherwise. Timestamps are modelled as the
-- epoch-millisecond value `new Date(x).getTime()` of the header field, with
-- `none` for an absent (or falsy) `timestamp`; `Date.now()` is the `now`
-- parameter. The optional chains `entry.message?.role` etc. are flattened
-- into optional `msg*` fields (`none` when any link is missing).

/-- One element of a `message.content` array; `partType` and `text` model the
`type` and `text` string fields of a well-formed content part. -/
structure MsgPart where
  partType : Str
  text : Str
deriving DecidableEq

/-- The payload of `entry.message.content`: a string, an array of parts, or
any other JSON value. -/
inductive MsgContent where
  | str : Str → MsgContent
  | arr : List MsgPart → MsgContent
  | other : MsgContent
deriving DecidableEq

/-- The fields of one parsed session-log line that `scanSession` reads. -/
structure LogEntry where
  timestamp : Option Int
  parentSession : Option Str
  cwd : Option Str
  entryType : Option Str
  name : Option Str
  msgRole : Option Str
  msgContent : Option MsgContent
  msgCostTotal : Option Int
deriving DecidableEq

/-- A log line: `none` when `JSON.parse` throws on it. -/
abbrev LogLine := Option LogEntry

/-- The 24-hour lookback window, in milliseconds. -/
def lookbackMs : Int := 24 * 60 * 60 * 1000

/-- Truthiness of an optional string field (JavaScript: absent or empty is
falsy). -/
def truthyStr (s : Option Str) : Bool :=
  match s with
  | some v => v ≠ []
  | none => false

/-- Result record (interface `SessionInfo` in src/lib.ts); `file` is omitted
because it merely echoes the input path. -/
structure SessionInfo where
  timestamp : Int
  title : Str
  isChild : Bool
  parentSession : Option Str
  cwd : Str
  cost : Int
deriving DecidableEq

/-- The first scanning pass over the lines after the header: the latest
truthy `session_info` name wins, and every assistant message with a truthy
`usage.cost.total` adds to the cost. Unparseable lines are skipped. -/
def passOne (title : Str) (cost : Int) : List LogLine → Str × Int
  | [] => (title, cost)
  | none :: rest => passOne title cost rest
  | some e :: rest =>
    let title' := if e.entryType = some (chars "session_info") ∧
        truthyStr e.name then e.name.getD [] else title
    let cost' := if e.entryType = some (chars "message") ∧
        e.msgRole = some (chars "assistant") ∧ e.msgCostTotal.getD 0 ≠ 0 then
      cost + e.msgCostTotal.getD 0 else cost
    passOne title' cost' rest

/-- Whether a parsed line is a user message (the test of the second pass). -/
def isUserMsg (e : LogEntry) : Bool :=
  e.entryType = some (chars "message") && e.msgRole = some (chars "user")

/-- The title derived from the content of one user message: a string payload
is sliced to 80 characters; for an array payload the first `"text"`-typed
part is sliced; any other payload leaves the title empty. -/
def titleFromContent (c : Option MsgContent) : Str :=
  match c with
  | some (.str s) => s.take 80
  | some (.arr parts) =>
    match parts.find? (fun p => p.partType == chars "text") with
    | some p => p.text.take 80
    | none => []
  | _ => []

/-- The second scanning pass, over the whole file (including the header
line): stop at the first user message and derive a title from it;
unparseable and non-user-message lines are skipped. -/
def passTwo : List LogLine → Str
  | [] => []
  | none :: rest => passTwo rest
  | some e :: rest =>
    if isUserMsg e then titleFromContent e.msgContent else passTwo rest

/-- Model of `scanSession` (src/lib.ts lines 185-248): `none` models the
`null` returns. -/
def scanSession (now : Int) (file : List LogLine) : Option SessionInfo :=
  match file with
  | [] => none
  | none :: _ => none
  | some header :: rest =>
    if header.timestamp.isSome ∧ header.timestamp.getD 0 < now - lookbackMs
    then none
    else
      let r := passOne [] 0 rest
      if header.timestamp.isSome then
        let title := if r.1 = [] then passTwo (some header :: rest) else r.1
        some ⟨header.timestamp.getD 0,
          if title = [] then chars "(untitled)" else title,
          truthyStr header.parentSession,
          if truthyStr header.parentSession then header.parentSession else none,
          (if truthyStr header.cwd then header.cwd.getD [] else []),
          r.2⟩
      else none

-- --- Housekeeping classifier (src/lib.ts, isHousekeeping) ---

/-- Model of `\s+(kw₁|kw₂|…)` applied at the start of `s`: one or more
whitespace characters followed by one of the listed literals (each literal
starts with a non-whitespace character, so maximal munch is complete). -/
def wsThenKw (kws : List Str) (s : Str) : Bool :=
  (s.takeWhile isWsChar) ≠ [] &&
    kws.any (fun k => k.isPrefixOf (s.dropWhile isWsChar))

/-- Model of `/^(clear|review|read)\s+(done|scratchpad|today|daily)/`. -/
def hkPatOne (s : Str) : Bool :=
  [chars "clear", chars "review", chars "read"].any
    (fun k => k.isPrefixOf s &&
      wsThenKw [chars "done", chars "scratchpad", chars "today", chars "daily"]
        (s.drop k.length))

/-- Model of `/^-\s+(no done|scratchpad|cleared|reviewed|task is)/`. -/
def hkPatTwo (s : Str) : Bool :=
  match s with
  | '-' :: rest =>
    wsThenKw [chars "no done", chars "scratchpad", chars "cleared",
      chars "reviewed", chars "task is"] rest
  | _ => false

/-- Model of `/^scratchpad\s+(content|management|maintenance|reviewed|items)/`. -/
def hkPatThree (s : Str) : Bool :=
  (chars "scratchpad").isPrefixOf s &&
    wsThenKw [chars "content", chars "management", chars "maintenance",
      chars "reviewed", chars "items"] (s.drop (chars "scratchpad").length)

/-- Model of `\w` (ASCII letters, digits, underscore). -/
def isWordChar (c : Char) : Bool := c.isAlpha || c.isDigit || c = '_'

/-- Model of `/^\/\w+$/`. -/
def hkPatSlash (s : Str) : Bool :=
  match s with
  | '/' :: rest => rest ≠ [] && rest.all isWordChar
  | _ => false

/-- The pattern battery of `isHousekeeping`, applied to the lowercased
title. -/
def isHousekeepingLower (l : Str) : Bool :=
  hkPatOne l || hkPatTwo l || hkPatThree l || l == chars "(untitled)" ||
    hkPatSlash l || (chars "write daily log").isPrefixOf l

/-- Model of `isHousekeeping` (src/lib.ts lines 250-261). -/
def isHousekeeping (title : Str) : Bool := isHousekeepingLower (lowerStr title)

-- --- Full-text search (src/lib.ts, searchMemory) ---
-- A directory is modelled as its `readdirSync` listing paired with the
-- `readFileSafe` outcome of each entry: `List (Str × Option Str)`.

/-- One line hit. -/
structure SearchHit where
  file : Str
  line : Nat
  text : Str
deriving DecidableEq

/-- The two accumulators of `searchMemory`. -/
structure SearchResult where
  fileMatches : List Str
  lineResults : List SearchHit
deriving DecidableEq

/-- Lexicographic code-unit comparison, modelling the default
`Array.prototype.sort` string comparator. -/
def strLe : Str → Str → Bool
  | [], _ => true
  | _ :: _, [] => false
  | a :: as, b :: bs => if a = b then strLe as bs else decide (a < b)

/-- Insertion into a name-sorted file list. -/
def insertByName (x : Str × Option Str) :
    List (Str × Option Str) → List (Str × Option Str)
  | [] => [x]
  | y :: ys => if strLe x.1 y.1 then x :: y :: ys else y :: insertByName x ys

/-- Stable sort of a file list by name (the result of `.sort()`; directory
listings carry distinct names, so any sorting algorithm agrees). -/
def sortByName : List (Str × Option Str) → List (Str × Option Str)
  | [] => []
  | x :: xs => insertByName x (sortByName xs)

/-- Model of `readdirSync(dir).filter(f => f.endsWith(".md")).sort()`. -/
def mdFiles (dir : List (Str × Option Str)) : List (Str × Option Str) :=
  sortByName (dir.filter (fun f => endsWithStr f.1 (chars ".md")))

/-- The display name of a file: the bare name in the memory root, or
`pfx/name` for the daily and notes directories. -/
def displayName (pfx name : Str) : Str :=
  if pfx = [] then name else pfx ++ '/' :: name

/-- The content-scanning loop of `searchFile`: walk the lines with their
0-based index, recording 1-indexed, right-trimmed hits while the result list
stays below the limit. -/
def scanContentLines (needle : Str) (maxResults : Nat) (dn : Str) :
    Nat → List Str → List SearchHit → List SearchHit
  | _, [], acc => acc
  | i, l :: ls, acc =>
    if acc.length < maxResults then
      scanContentLines needle maxResults dn (i + 1) ls
        (if hasInfix (lowerStr l) needle then acc ++ [⟨dn, i + 1, trimEnd l⟩]
         else acc)
    else acc

/-- Model of the inner `searchFile` helper of `searchMemory`: record a file
match on a name hit (without duplicates), then scan the content lines when the
file is readable and non-empty (an unreadable or empty file is falsy and is
skipped). -/
def searchFile (needle : Str) (maxResults : Nat) (st : SearchResult)
    (dn : Str) (content : Option Str) : SearchResult :=
  let fm := if hasInfix (lowerStr dn) needle ∧ dn ∉ st.fileMatches then
    st.fileMatches ++ [dn] else st.fileMatches
  match content with
  | some c =>
    if c = [] then ⟨fm, st.lineResults⟩
    else ⟨fm, scanContentLines needle maxResults dn 0 (splitLines c)
      st.lineResults⟩
  | none => ⟨fm, st.lineResults⟩

/-- Model of the `searchDir` loop: visit the (already filtered and sorted)
files of one directory, stopping as soon as the line-result limit has been
reached. -/
def searchDirFiles (needle : Str) (maxResults : Nat) (pfx : Str)
    (st : SearchResult) : List (Str × Option Str) → SearchResult
  | [] => st
  | (name, c) :: rest =>
    if st.lineResults.length ≥ maxResults then st
    else searchDirFiles needle maxResults pfx
      (searchFile needle maxResults st (displayName pfx name) c) rest

/-- Model of `searchMemory` (src/lib.ts lines 270-304), over the listings of
the memory root, daily, and notes directories. -/
def searchMemory (memRoot daily notes : List (Str × Option Str))
    (query : Str) (maxResults : Nat) : SearchResult :=
  let needle := lowerStr query
  let st := searchDirFiles needle maxResults [] ⟨[], []⟩ (mdFiles memRoot)
  let st := searchDirFiles needle maxResults (chars "daily") st (mdFiles daily)
  searchDirFiles needle maxResults (chars "notes") st (mdFiles notes)

-- --- memory_write tool (src/unnamed/part_000, registerTool "memory_write") ---

/-- The targets of the `memory_write` tool. -/
inductive WriteTarget where
  | long_term
  | daily
  | note
deriving DecidableEq

/-- The write modes; `none` in the params means the mode was omitted. -/
inductive WriteMode where
  | append
  | overwrite
deriving DecidableEq

/-- The declared parameters of `memory_write`. -/
structure WriteParams where
  target : WriteTarget
  content : Str
  mode : Option WriteMode
  filename : Option Str
deriving DecidableEq

/-- One file write performed by the tool. -/
structure FsWrite where
  path : Str
  data : Str
deriving DecidableEq

/-- Evaluation outcome of the `execute` body: a returned tool result (its
text plus the writes performed), or a thrown exception. -/
inductive ExecResult where
  | ok : Str → List FsWrite → ExecResult
  | thrown : Str → ExecResult
deriving DecidableEq

/-- The stamped block prepended to appended content:
`<!-- <ts> [<sid>] -->\n<content>`. -/
def stampedAppend (ts sid content : Str) : Str :=
  chars "<!-- " ++ ts ++ chars " [" ++ sid ++ chars "] -->\n" ++ content

/-- The stamped block used by overwrite mode:
`<!-- last updated: <ts> [<sid>] -->\n<content>`. -/
def stampedOverwrite (ts sid content : Str) : Str :=
  chars "<!-- last updated: " ++ ts ++ chars " [" ++ sid ++ chars "] -->\n" ++
    content

/-- Model of the `execute` body of `memory_write` (src/unnamed/part_000 lines
582-658). Its first statement destructures only `target`, `content` and
`mode` from `params`; the identifier `filename` used by the `note` branch is
bound nowhere in any enclosing scope, so evaluating the guard
`if (!filename)` throws a `ReferenceError` before anything else in that
branch can run — including the guarded `return` of the
`"Error: 'filename' is required for target 'note'."` result. The other two
branches never mention `filename` and run normally. `fs` is the pure
read model, `ts`/`sid` the timestamp and short session id stamps. -/
def memoryWriteExecute (fs : Str → Option Str) (memoryFile dailyFile : Str)
    (ts sid : Str) (p : WriteParams) : ExecResult :=
  match p.target with
  | .note => .thrown (chars "ReferenceError: filename is not defined")
  | .daily =>
    let existing := (fs dailyFile).getD []
    let snippet := if trim existing ≠ [] then
        chars "\n\nExisting daily log content:\n" ++ trim existing
      else chars "\n\nDaily log was empty."
    let separator := if trim existing ≠ [] then chars "\n\n" else []
    let stamped := stampedAppend ts sid p.content
    .ok (chars "Appended to daily log: " ++ dailyFile ++ snippet)
      [⟨dailyFile, existing ++ separator ++ stamped⟩]
  | .long_term =>
    let existing := (fs memoryFile).getD []
    let snippet := if trim existing ≠ [] then
        chars "\n\nExisting MEMORY.md content:\n" ++ trim existing
      else chars "\n\nMEMORY.md was empty."
    if p.mode = some .overwrite then
      .ok (chars "Overwrote MEMORY.md" ++ snippet)
        [⟨memoryFile, stampedOverwrite ts sid p.content⟩]
    else
      let separator := if trim existing ≠ [] then chars "\n\n" else []
      .ok (chars "Appended to MEMORY.md" ++ snippet)
        [⟨memoryFile, existing ++ separator ++ stampedAppend ts sid p.content⟩]

/-!
## Lemmas

Supporting lemmas about the string model, followed by one theorem (plus
witness or counterexample) per specification claim.
-/

theorem dropWhile_idem (p : Char → Bool) (l : Str) :
    (l.dropWhile p).dropWhile p = l.dropWhile p := by
  induction l with
  | nil => rfl
  | cons a t ih =>
    by_cases h : p a = true
    · simp [List.dropWhile_cons, h, ih]
    · simp [List.dropWhile_cons, h]

theorem mem_dropWhile_of_not {p : Char → Bool} {l : Str} {x : Char}
    (hx : x ∈ l) (hp : p x = false) : x ∈ l.dropWhile p := by
  rw [← List.takeWhile_append_dropWhile p l] at hx
  rcases List.mem_append.mp hx with h | h
  · have := List.mem_takeWhile_imp h
    rw [hp] at this
    exact absurd this (by simp)
  · exact h

theorem head?_dropWhile_false {p : Char → Bool} :
    ∀ (l : Str) {a : Char}, (l.dropWhile p).head? = some a → p a = false := by
  intro l
  induction l with
  | nil => intro a h; simp at h
  | cons b t ih =>
    intro a h
    by_cases hb : p b = true
    · rw [List.dropWhile_cons, if_pos hb] at h
      exact ih h
    · rw [List.dropWhile_cons, if_neg hb] at h
      simp only [List.head?_cons, Option.some.injEq] at h
      rw [← h]
      exact Bool.eq_false_iff.mpr hb

theorem trimEnd_of_getLast_not_ws {s : Str} {a : Char}
    (h : s.getLast? = some a) (ha : isWsChar a = false) : trimEnd s = s := by
  have hrev : s.reverse.head? = some a := by
    rw [List.head?_reverse]; exact h
  cases hr : s.reverse with
  | nil => rw [hr] at hrev; simp at hrev
  | cons b t =>
    rw [hr] at hrev
    simp only [List.head?_cons, Option.some.injEq] at hrev
    unfold trimEnd
    rw [hr, List.dropWhile_cons, if_neg (by rw [← hrev] at ha; simp [ha]),
      ← hr, List.reverse_reverse]

theorem trim_trim (s : Str) : trim (trim s) = trim s := by
  by_cases ht : trim s = []
  · rw [ht]; rfl
  · obtain ⟨a, ha⟩ : ∃ a, (trim s).getLast? = some a := by
      cases h : (trim s).getLast? with
      | none => exact absurd (List.getLast?_eq_none_iff.mp h) ht
      | some a => exact ⟨a, rfl⟩
    obtain ⟨pre, hpre⟩ : trim s <:+ trimEnd s := List.dropWhile_suffix _
    have h1 : (trimEnd s).getLast? = some a := by
      rw [← hpre, List.getLast?_append_of_ne_nil pre ht, ha]
    have h2 : (s.reverse.dropWhile isWsChar).head? = some a := by
      have heq : (trimEnd s).getLast? = (s.reverse.dropWhile isWsChar).head? := by
        unfold trimEnd
        rw [← List.head?_reverse, List.reverse_reverse]
      rw [← heq, h1]
    have hws : isWsChar a = false := head?_dropWhile_false _ h2
    show trimStart (trimEnd (trim s)) = trim s
    rw [trimEnd_of_getLast_not_ws ha hws]
    show ((trimEnd s).dropWhile isWsChar).dropWhile isWsChar = trim s
    exact dropWhile_idem _ _

theorem all_ws_of_trim_eq_nil {s : Str} (h : trim s = []) :
    ∀ c ∈ s, isWsChar c = true := by
  intro c hc
  by_cases hcw : isWsChar c = true
  · exact hcw
  · have hcw' : isWsChar c = false := Bool.eq_false_iff.mpr hcw
    have h2 : c ∈ s.reverse.dropWhile isWsChar :=
      mem_dropWhile_of_not (List.mem_reverse.mpr hc) hcw'
    have h3 : c ∈ trimEnd s := by
      unfold trimEnd; exact List.mem_reverse.mpr h2
    have h4 : c ∈ trim s := mem_dropWhile_of_not h3 hcw'
    rw [h] at h4
    exact absurd h4 (List.not_mem_nil c)

theorem splitOnChar_ne_nil (sep : Char) (s : Str) : splitOnChar sep s ≠ [] := by
  cases s with
  | nil => simp [splitOnChar]
  | cons c cs =>
    unfold splitOnChar
    by_cases h : c = sep
    · simp [h]
    · rw [if_neg h]
      cases splitOnChar sep cs <;> simp

theorem mem_of_mem_splitOnChar {sep : Char} :
    ∀ {s l : Str}, l ∈ splitOnChar sep s → ∀ x ∈ l, x ∈ s := by
  intro s
  induction s with
  | nil =>
    intro l hl x hx
    simp [splitOnChar] at hl
    rw [hl] at hx
    exact absurd hx (List.not_mem_nil x)
  | cons c cs ih =>
    intro l hl x hx
    unfold splitOnChar at hl
    by_cases h : c = sep
    · rw [if_pos h] at hl
      rcases List.mem_cons.mp hl with h1 | h1
      · rw [h1] at hx; exact absurd hx (List.not_mem_nil x)
      · exact List.mem_cons_of_mem c (ih h1 x hx)
    · rw [if_neg h] at hl
      cases hsp : splitOnChar sep cs with
      | nil => exact absurd hsp (splitOnChar_ne_nil sep cs)
      | cons hd tl =>
        rw [hsp] at hl
        rcases List.mem_cons.mp hl with h1 | h1
        · rw [h1] at hx
          rcases List.mem_cons.mp hx with h2 | h2
          · rw [h2]; exact List.mem_cons_self c cs
          · have : hd ∈ splitOnChar sep cs := by rw [hsp]; exact List.mem_cons_self hd tl
            exact List.mem_cons_of_mem c (ih this x h2)
        · have : l ∈ splitOnChar sep cs := by rw [hsp]; exact List.mem_cons_of_mem hd h1
          exact List.mem_cons_of_mem c (ih this x hx)

theorem splitOnChar_append_cons (sep : Char) {l : Str} (hl : sep ∉ l)
    (rest : Str) :
    splitOnChar sep (l ++ sep :: rest) = l :: splitOnChar sep rest := by
  induction l with
  | nil => simp [splitOnChar]
  | cons c cs ih =>
    have hc : ¬ c = sep := fun h => hl (h ▸ List.mem_cons_self c cs)
    have hcs : sep ∉ cs := fun h => hl (List.mem_cons_of_mem c h)
    show splitOnChar sep (c :: (cs ++ sep :: rest)) = (c :: cs) :: splitOnChar sep rest
    simp only [splitOnChar]
    rw [if_neg hc, ih hcs]

theorem splitLines_joinLines :
    ∀ (ls : List Str), ls ≠ [] → (∀ l ∈ ls, '\n' ∉ l) →
      splitLines (joinLines ls ++ ['\n']) = ls ++ [[]]
  | [], hne, _ => absurd rfl hne
  | [l], _, h => by
    show splitLines (l ++ '\n' :: []) = [l, []]
    unfold splitLines
    rw [splitOnChar_append_cons '\n' (h l (List.mem_singleton.mpr rfl)) []]
    rfl
  | l :: l' :: ls, _, h => by
    have hl : '\n' ∉ l := h l (List.mem_cons_self l _)
    have hrest : ∀ m ∈ l' :: ls, '\n' ∉ m := fun m hm => h m (List.mem_cons_of_mem l hm)
    show splitLines ((l ++ '\n' :: joinLines (l' :: ls)) ++ ['\n']) = (l :: l' :: ls) ++ [[]]
    have hassoc : (l ++ '\n' :: joinLines (l' :: ls)) ++ ['\n'] =
        l ++ '\n' :: (joinLines (l' :: ls) ++ ['\n']) := by
      simp [List.append_assoc]
    rw [hassoc]
    unfold splitLines
    rw [splitOnChar_append_cons '\n' hl]
    have := splitLines_joinLines (l' :: ls) (by simp) hrest
    unfold splitLines at this
    rw [this]
    rfl

-- --- Matcher inversion and construction lemmas ---

theorem matchChecklistLine_inv {l : Str} {cb : Char} {text : Str}
    (h : matchChecklistLine l = some (cb, text)) :
    l = '-' :: ' ' :: '[' :: cb :: ']' :: ' ' :: text ∧
      (cb = ' ' ∨ cb = 'x' ∨ cb = 'X') ∧ text ≠ [] ∧ text.all dotChar = true := by
  cases l with
  | nil => exact absurd h (by simp [matchChecklistLine])
  | cons c1 l1 =>
  cases l1 with
  | nil => exact absurd h (by simp [matchChecklistLine])
  | cons c2 l2 =>
  cases l2 with
  | nil => exact absurd h (by simp [matchChecklistLine])
  | cons c3 l3 =>
  cases l3 with
  | nil => exact absurd h (by simp [matchChecklistLine])
  | cons c l4 =>
  cases l4 with
  | nil => exact absurd h (by simp [matchChecklistLine])
  | cons c5 l5 =>
  cases l5 with
  | nil => exact absurd h (by simp [matchChecklistLine])
  | cons c6 rest =>
  simp only [matchChecklistLine] at h
  split at h
  · rename_i hcond
    obtain ⟨e1, e2, e3, e5, e6, hcb, hne, hall⟩ := hcond
    obtain ⟨hc, ht⟩ : c = cb ∧ rest = text := by
      injection h with h'
      exact ⟨congrArg Prod.fst h', congrArg Prod.snd h'⟩
    subst e1; subst e2; subst e3; subst e5; subst e6; subst hc; subst ht
    exact ⟨rfl, hcb, hne, hall⟩
  · exact absurd h (by simp)

theorem matchChecklistLine_none_of_head {c : Char} (cs : Str) (hne : c ≠ '-') :
    matchChecklistLine (c :: cs) = none := by
  rcases cs with _ | ⟨c2, _ | ⟨c3, _ | ⟨c4, _ | ⟨c5, _ | ⟨c6, rest⟩⟩⟩⟩⟩ <;>
    simp [matchChecklistLine, hne]

theorem matchCommentLine_inv {m : Str} (h : matchCommentLine m = true) :
    ∃ mid : Str, m = '<' :: '!' :: '-' :: '-' :: (mid ++ ['-', '-', '>']) ∧
      mid.all dotChar = true := by
  cases m with
  | nil => exact absurd h (by simp [matchCommentLine])
  | cons c1 m1 =>
  cases m1 with
  | nil => exact absurd h (by simp [matchCommentLine])
  | cons c2 m2 =>
  cases m2 with
  | nil => exact absurd h (by simp [matchCommentLine])
  | cons c3 m3 =>
  cases m3 with
  | nil => exact absurd h (by simp [matchCommentLine])
  | cons c4 rest =>
  simp only [matchCommentLine, Bool.and_eq_true, beq_iff_eq] at h
  obtain ⟨⟨⟨⟨e1, e2⟩, e3⟩, e4⟩, hm⟩ := h
  subst e1; subst e2; subst e3; subst e4
  generalize hr : rest.reverse = rl at hm
  cases rl with
  | nil => exact absurd hm (by simp)
  | cons d1 r1 =>
  cases r1 with
  | nil => exact absurd hm (by simp)
  | cons d2 r2 =>
  cases r2 with
  | nil => exact absurd hm (by simp)
  | cons d3 midRev =>
  have hm' : (d1 == '>' && d2 == '-' && d3 == '-' && midRev.all dotChar) =
      true := hm
  simp only [Bool.and_eq_true, beq_iff_eq] at hm'
  obtain ⟨⟨⟨f1, f2⟩, f3⟩, hall⟩ := hm'
  subst f1; subst f2; subst f3
  refine ⟨midRev.reverse, ?_, ?_⟩
  · have hrr : rest = midRev.reverse ++ ['-', '-', '>'] := by
      rw [← List.reverse_reverse rest, hr]
      simp
    rw [hrr]
  · rw [List.all_eq_true] at hall ⊢
    intro x hx
    exact hall x (List.mem_reverse.mp hx)

theorem matchCommentLine_no_newline {m : Str} (h : matchCommentLine m = true) :
    '\n' ∉ m := by
  obtain ⟨mid, hm, hall⟩ := matchCommentLine_inv h
  rw [hm]
  intro hmem
  rw [List.all_eq_true] at hall
  simp only [List.mem_cons, List.mem_append, List.mem_singleton] at hmem
  rcases hmem with h1 | h1 | h1 | h1 | h1
  · exact absurd h1.symm (by decide)
  · exact absurd h1.symm (by decide)
  · exact absurd h1.symm (by decide)
  · exact absurd h1.symm (by decide)
  · rcases h1 with h2 | h2
    · have := hall '\n' h2
      exact absurd this (by decide)
    · exact absurd h2 (by decide)

theorem matchCommentLine_not_checklist {m : Str}
    (h : matchCommentLine m = true) : matchChecklistLine m = none := by
  obtain ⟨mid, hm, _⟩ := matchCommentLine_inv h
  rw [hm]
  exact matchChecklistLine_none_of_head _ (by decide)

theorem matchCommentLine_false_of_head {c : Char} (cs : Str) (hne : c ≠ '<') :
    matchCommentLine (c :: cs) = false := by
  rcases cs with _ | ⟨c2, _ | ⟨c3, _ | ⟨c4, rest⟩⟩⟩ <;>
    simp [matchCommentLine, hne]

-- --- Round-trip machinery for the scratchpad codec ---

theorem checklistLineOf_eq (it : ScratchpadItem) :
    checklistLineOf it =
      '-' :: ' ' :: '[' :: (if it.done then 'x' else ' ') :: ']' :: ' ' ::
        it.text := by
  cases hd : it.done <;> simp [checklistLineOf, chars, hd]

theorem matchChecklistLine_checklistLineOf (it : ScratchpadItem)
    (h1 : it.text ≠ []) (h2 : it.text.all dotChar = true) :
    matchChecklistLine (checklistLineOf it) =
      some (if it.done then 'x' else ' ', it.text) := by
  rw [checklistLineOf_eq]
  cases hd : it.done <;> simp [matchChecklistLine, h1, h2]

theorem checklistLineOf_no_newline (it : ScratchpadItem)
    (h2 : it.text.all dotChar = true) : '\n' ∉ checklistLineOf it := by
  rw [checklistLineOf_eq]
  intro hmem
  simp only [List.mem_cons] at hmem
  rcases hmem with h | h | h | h | h | h | h
  · exact absurd h.symm (by decide)
  · exact absurd h.symm (by decide)
  · exact absurd h.symm (by decide)
  · by_cases hd : it.done = true
    · rw [if_pos hd] at h
      exact absurd h.symm (by decide)
    · rw [if_neg hd] at h
      exact absurd h.symm (by decide)
  · exact absurd h.symm (by decide)
  · exact absurd h.symm (by decide)
  · rw [List.all_eq_true] at h2
    have := h2 '\n' h
    exact absurd this (by decide)

theorem matchCommentLine_checklistLineOf (it : ScratchpadItem) :
    matchCommentLine (checklistLineOf it) = false := by
  rw [checklistLineOf_eq]
  exact matchCommentLine_false_of_head _ (by decide)

/-- The hypotheses of the (amended) round-trip law for one item: non-empty
single-line text that is not itself a checklist line, and an absent or
syntactically valid comment-line meta. -/
def goodItem (it : ScratchpadItem) : Prop :=
  it.text ≠ [] ∧ it.text.all dotChar = true ∧
    matchChecklistLine it.text = none ∧
    (it.meta = [] ∨ matchCommentLine it.meta = true)

instance : DecidablePred goodItem := fun it => by
  unfold goodItem; infer_instance

theorem parseLinesAux_cons_none (prev : Option Str) (l : Str) (ls : List Str)
    (h : matchChecklistLine l = none) :
    parseLinesAux prev (l :: ls) = parseLinesAux (some l) ls := by
  simp [parseLinesAux, h]

theorem parseLinesAux_cons_some_none (l : Str) (ls : List Str) (cb : Char)
    (text : Str) (h : matchChecklistLine l = some (cb, text)) :
    parseLinesAux none (l :: ls) =
      ⟨cb.toLower == 'x', text, []⟩ :: parseLinesAux (some l) ls := by
  simp [parseLinesAux, h]

theorem parseLinesAux_cons_some_prev (p l : Str) (ls : List Str) (cb : Char)
    (text : Str) (h : matchChecklistLine l = some (cb, text)) :
    parseLinesAux (some p) (l :: ls) =
      ⟨cb.toLower == 'x', text, if matchCommentLine p then p else []⟩ ::
        parseLinesAux (some l) ls := by
  simp [parseLinesAux, h]

theorem toLower_checkbox (d : Bool) :
    ((if d then 'x' else ' ').toLower == 'x') = d := by
  cases d <;> decide

theorem parseLinesAux_linesOfItems :
    ∀ (items : List ScratchpadItem), (∀ it ∈ items, goodItem it) →
      ∀ prev : Option Str, (∀ p, prev = some p → matchCommentLine p = false) →
        parseLinesAux prev (linesOfItems items ++ [[]]) = items := by
  intro items
  induction items with
  | nil =>
    intro _ prev _
    show parseLinesAux prev [[]] = []
    simp [parseLinesAux, matchChecklistLine]
  | cons it items ih =>
    intro hgood prev hprev
    obtain ⟨d, tx, m⟩ := it
    obtain ⟨h1, h2, _h3, h4⟩ := hgood ⟨d, tx, m⟩ (List.mem_cons_self _ items)
    have h1 : tx ≠ [] := h1
    have h2 : tx.all dotChar = true := h2
    have h4 : m = [] ∨ matchCommentLine m = true := h4
    have hgood' : ∀ i ∈ items, goodItem i :=
      fun i hi => hgood i (List.mem_cons_of_mem _ hi)
    have hmatch : matchChecklistLine (checklistLineOf ⟨d, tx, m⟩) =
        some (if d then 'x' else ' ', tx) :=
      matchChecklistLine_checklistLineOf ⟨d, tx, m⟩ h1 h2
    have hcl_safe : ∀ p, some (checklistLineOf ⟨d, tx, m⟩) = some p →
        matchCommentLine p = false := by
      intro p hp
      injection hp with hp
      rw [← hp]
      exact matchCommentLine_checklistLineOf _
    rcases h4 with hmeta | hmeta
    · -- the meta field is empty: only the checklist line is serialized
      have hlines : linesOfItems (⟨d, tx, m⟩ :: items) ++ [[]] =
          checklistLineOf ⟨d, tx, m⟩ :: (linesOfItems items ++ [[]]) := by
        simp [linesOfItems, itemLines, hmeta]
      rcases prev with _ | p
      · rw [hlines, parseLinesAux_cons_some_none _ _ _ _ hmatch,
          ih hgood' _ hcl_safe, toLower_checkbox, hmeta]
      · have hp := hprev p rfl
        have hite : (if matchCommentLine p then p else []) = ([] : Str) := by
          simp [hp]
        rw [hlines, parseLinesAux_cons_some_prev _ _ _ _ _ hmatch,
          ih hgood' _ hcl_safe, toLower_checkbox, hite, hmeta]
    · -- the meta field is a comment line and is serialized before the item
      have hmne : m ≠ [] := by
        intro hm
        rw [hm] at hmeta
        exact absurd hmeta (by decide)
      have hlines : linesOfItems (⟨d, tx, m⟩ :: items) ++ [[]] =
          m :: checklistLineOf ⟨d, tx, m⟩ :: (linesOfItems items ++ [[]]) := by
        simp [linesOfItems, itemLines, hmne]
      have hite : (if matchCommentLine m then m else []) = m := by
        simp [hmeta]
      rw [hlines,
        parseLinesAux_cons_none _ _ _ (matchCommentLine_not_checklist hmeta),
        parseLinesAux_cons_some_prev _ _ _ _ _ hmatch, ih hgood' _ hcl_safe,
        toLower_checkbox, hite]

theorem linesOfItems_no_newline :
    ∀ (items : List ScratchpadItem), (∀ it ∈ items, goodItem it) →
      ∀ l ∈ linesOfItems items, '\n' ∉ l := by
  intro items
  induction items with
  | nil =>
    intro _ l hl
    simp [linesOfItems] at hl
  | cons it items ih =>
    intro hgood l hl
    obtain ⟨_h1, h2, _h3, h4⟩ := hgood it (List.mem_cons_self _ _)
    have hgood' : ∀ i ∈ items, goodItem i :=
      fun i hi => hgood i (List.mem_cons_of_mem _ hi)
    simp only [linesOfItems] at hl
    rcases List.mem_append.mp hl with hl | hl
    · by_cases hm : it.meta = []
      · have hlc : l = checklistLineOf it := by
          simp [itemLines, hm] at hl
          exact hl
        rw [hlc]
        exact checklistLineOf_no_newline it h2
      · simp [itemLines, hm] at hl
        rcases hl with hl | hl
        · rcases h4 with h4 | h4
          · exact absurd h4 hm
          · rw [hl]
            exact matchCommentLine_no_newline h4
        · rw [hl]
          exact checklistLineOf_no_newline it h2
    · exact ih hgood' l hl

/-- C1 (amended): for every item list in which each item has a non-empty
text containing no line-terminator character (in particular no newline), the
text does not itself match the checklist line pattern, and the meta is empty
or a syntactically valid single-line HTML comment,
`parseScratchpad (serializeScratchpad items) = items` — length, order, and
the `done`/`text`/`meta` fields are all preserved. -/
theorem claim_C1_roundtrip (items : List ScratchpadItem)
    (hgood : ∀ it ∈ items, it.text ≠ [] ∧ it.text.all dotChar = true ∧
      matchChecklistLine it.text = none ∧
      (it.meta = [] ∨ matchCommentLine it.meta = true)) :
    parseScratchpad (serializeScratchpad items) = items := by
  unfold parseScratchpad serializeScratchpad
  have hne : ([chars "# Scratchpad", []] ++ linesOfItems items) ≠ [] := by simp
  have hnl : ∀ l ∈ [chars "# Scratchpad", []] ++ linesOfItems items,
      '\n' ∉ l := by
    intro l hl
    rcases List.mem_append.mp hl with hl | hl
    · rcases List.mem_cons.mp hl with hl | hl
      · rw [hl]; decide
      · rcases List.mem_cons.mp hl with hl | hl
        · rw [hl]; exact List.not_mem_nil '\n'
        · exact absurd hl (List.not_mem_nil l)
    · exact linesOfItems_no_newline items hgood l hl
  rw [splitLines_joinLines _ hne hnl]
  have hassoc : ([chars "# Scratchpad", []] ++ linesOfItems items) ++ [[]] =
      chars "# Scratchpad" :: [] :: (linesOfItems items ++ [[]]) := by simp
  rw [hassoc,
    parseLinesAux_cons_none _ _ _ (by decide),
    parseLinesAux_cons_none _ _ _ (by decide)]
  exact parseLinesAux_linesOfItems items hgood _
    (fun p hp => by injection hp with hp; rw [← hp]; decide)

/-- Witness for C1: a concrete two-item list (one open item without meta,
one done item with a comment meta) round-trips unchanged. -/
theorem claim_C1_roundtrip_witness :
    parseScratchpad (serializeScratchpad
      [⟨false, chars "Fix bug", []⟩,
       ⟨true, chars "Done task", chars "<!-- 2026-02-18 [abc12345] -->"⟩]) =
      [⟨false, chars "Fix bug", []⟩,
       ⟨true, chars "Done task", chars "<!-- 2026-02-18 [abc12345] -->"⟩] :=
  claim_C1_roundtrip _ (by decide)

/-- Counterexample to C1 as stated: the item `{done: false, text: "", meta:
""}` satisfies every hypothesis of the claim (its text contains no newline
and does not match the checklist line pattern, its meta is empty), yet the
serialized line `- [ ] ` does not parse back (the pattern requires a
non-empty body), so the round trip loses the item. -/
theorem claim_C1_counterexample :
    ('\n' ∉ (⟨false, [], []⟩ : ScratchpadItem).text) ∧
      matchChecklistLine (⟨false, [], []⟩ : ScratchpadItem).text = none ∧
      (⟨false, [], []⟩ : ScratchpadItem).meta = [] ∧
      parseScratchpad (serializeScratchpad [⟨false, [], []⟩]) ≠
        [(⟨false, [], []⟩ : ScratchpadItem)] := by decide

-- --- C10: invariants of every parse result ---

theorem no_newline_of_all_dotChar {s : Str} (h : s.all dotChar = true) :
    '\n' ∉ s := by
  intro hm
  rw [List.all_eq_true] at h
  exact absurd (h '\n' hm) (by decide)

theorem comment_prefix_suffix {m : Str} (h : matchCommentLine m = true) :
    chars "<!--" <+: m ∧ chars "-->" <:+ m := by
  obtain ⟨mid, hm, _⟩ := matchCommentLine_inv h
  subst hm
  exact ⟨⟨mid ++ ['-', '-', '>'], rfl⟩, ⟨'<' :: '!' :: '-' :: '-' :: mid, rfl⟩⟩

theorem parseLinesAux_item_good :
    ∀ (lines : List Str) (prev : Option Str) (it : ScratchpadItem),
      it ∈ parseLinesAux prev lines →
        it.text ≠ [] ∧ it.text.all dotChar = true ∧
          (it.meta = [] ∨ matchCommentLine it.meta = true) := by
  intro lines
  induction lines with
  | nil =>
    intro prev it h
    simp [parseLinesAux] at h
  | cons l ls ih =>
    intro prev it h
    simp only [parseLinesAux] at h
    rcases List.mem_append.mp h with h | h
    · cases hm : matchChecklistLine l with
      | none =>
        rw [hm] at h
        simp at h
      | some pr =>
        obtain ⟨cb, text⟩ := pr
        rw [hm] at h
        simp at h
        obtain ⟨_, htext_ne, hall⟩ :=
          (matchChecklistLine_inv hm).2
        rw [h]
        refine ⟨htext_ne, hall, ?_⟩
        rcases prev with _ | p
        · exact Or.inl rfl
        · show (if matchCommentLine p = true then p else []) = [] ∨
            matchCommentLine (if matchCommentLine p = true then p else []) =
              true
          by_cases hc : matchCommentLine p = true
          · rw [if_pos hc]
            exact Or.inr hc
          · rw [if_neg hc]
            exact Or.inl rfl
    · exact ih (some l) it h

/-- C10: every item produced by `parseScratchpad` has a non-empty text
containing no newline character, and a meta that is either the empty string
or a full line matching the HTML-comment pattern (it satisfies the comment
regular expression, so it starts with `<!--` and ends with `-->`); hence a
parse result always respects the line discipline `serializeScratchpad`
expects. -/
theorem claim_C10_parse_invariant (content : Str) (it : ScratchpadItem)
    (h : it ∈ parseScratchpad content) :
    it.text ≠ [] ∧ '\n' ∉ it.text ∧
      (it.meta = [] ∨ (matchCommentLine it.meta = true ∧
        chars "<!--" <+: it.meta ∧ chars "-->" <:+ it.meta)) := by
  obtain ⟨h1, h2, h3⟩ := parseLinesAux_item_good (splitLines content) none it h
  refine ⟨h1, no_newline_of_all_dotChar h2, ?_⟩
  rcases h3 with h3 | h3
  · exact Or.inl h3
  · obtain ⟨hp, hs⟩ := comment_prefix_suffix h3
    exact Or.inr ⟨h3, hp, hs⟩

/-- Witness for C10 at a concrete parse: the item parsed from a meta-annotated
line satisfies the invariant. -/
theorem claim_C10_parse_invariant_witness :
    (⟨false, chars "Task", chars "<!-- stamp -->"⟩ : ScratchpadItem).text ≠ [] ∧
      '\n' ∉ (⟨false, chars "Task", chars "<!-- stamp -->"⟩ : ScratchpadItem).text ∧
      ((⟨false, chars "Task", chars "<!-- stamp -->"⟩ : ScratchpadItem).meta = [] ∨
        (matchCommentLine (⟨false, chars "Task", chars "<!-- stamp -->"⟩ : ScratchpadItem).meta = true ∧
          chars "<!--" <+: (⟨false, chars "Task", chars "<!-- stamp -->"⟩ : ScratchpadItem).meta ∧
          chars "-->" <:+ (⟨false, chars "Task", chars "<!-- stamp -->"⟩ : ScratchpadItem).meta)) :=
  claim_C10_parse_invariant (chars "<!-- stamp -->\n- [ ] Task") _ (by decide)

-- --- C5: buildConfig ---

/-- C5: `buildConfig` with only `HOME=/home/u` resolves the memory root to
`/home/u/.pi/agent/memory` with autocommit off; autocommit is on exactly for
the strings `"1"` and `"true"` (so `"yes"` is off); and the comma-separated
context-file input is split, trimmed entry-wise, stripped of empty entries,
and kept in order. -/
theorem claim_C5_buildConfig :
    (buildConfig ⟨some (chars "/home/u"), none, none, none, none⟩).memoryDir =
        chars "/home/u/.pi/agent/memory" ∧
    (buildConfig ⟨some (chars "/home/u"), none, none, none, none⟩).autocommit =
        false ∧
    (∀ env : EnvMap, (buildConfig env).autocommit = true ↔
      (env.PI_AUTOCOMMIT = some (chars "1") ∨
        env.PI_AUTOCOMMIT = some (chars "true"))) ∧
    (buildConfig ⟨some (chars "/x"), none, none, none,
        some (chars "yes")⟩).autocommit = false ∧
    (∀ env : EnvMap, ∀ f ∈ (buildConfig env).contextFiles,
      f ≠ [] ∧ trim f = f ∧
        ∃ raw ∈ splitOnChar ',' (env.PI_CONTEXT_FILES.getD []), f = trim raw) ∧
    (buildConfig ⟨none, none, none, some (chars " a.md , ,b.md "),
        none⟩).contextFiles = [chars "a.md", chars "b.md"] := by
  refine ⟨by decide, by decide, ?_, by decide, ?_, by decide⟩
  · intro env
    show decide (env.PI_AUTOCOMMIT = some (chars "1") ∨
      env.PI_AUTOCOMMIT = some (chars "true")) = true ↔ _
    exact decide_eq_true_iff
  · intro env f hf
    have hf' := List.mem_filter.mp hf
    obtain ⟨raw, hraw, hfeq⟩ := List.mem_map.mp hf'.1
    refine ⟨by simpa using hf'.2, ?_, raw, hraw, hfeq.symm⟩
    rw [← hfeq]
    exact trim_trim raw

/-- Witness for C5: at a concrete environment the context-file entries are
non-empty, trimmed, and each comes from one piece of the comma split. -/
theorem claim_C5_buildConfig_witness :
    chars "a.md" ≠ [] ∧ trim (chars "a.md") = chars "a.md" ∧
      ∃ raw ∈ splitOnChar ','
        ((⟨none, none, none, some (chars " a.md , ,b.md "),
          none⟩ : EnvMap).PI_CONTEXT_FILES.getD []),
        chars "a.md" = trim raw :=
  claim_C5_buildConfig.2.2.2.2.1
    ⟨none, none, none, some (chars " a.md , ,b.md "), none⟩
    (chars "a.md") (by decide)

-- --- C9: isHousekeeping ---

/-- C9: `isHousekeeping` accepts the titles `"Clear done items"`,
`"(untitled)"` and `"/reload"`, rejects `"Fix memory bug"`, and only depends
on the lowercased title, so the classification is case-insensitive. -/
theorem claim_C9_isHousekeeping :
    isHousekeeping (chars "Clear done items") = true ∧
    isHousekeeping (chars "(untitled)") = true ∧
    isHousekeeping (chars "/reload") = true ∧
    isHousekeeping (chars "Fix memory bug") = false ∧
    ∀ s t : Str, lowerStr s = lowerStr t →
      isHousekeeping s = isHousekeeping t := by
  refine ⟨by decide, by decide, by decide, by decide, ?_⟩
  intro s t h
  unfold isHousekeeping
  rw [h]

/-- Witness for C9: a case variant of a housekeeping title classifies the
same as its lowercase form. -/
theorem claim_C9_isHousekeeping_witness :
    isHousekeeping (chars "CLEAR Done Items") =
      isHousekeeping (chars "clear done items") :=
  claim_C9_isHousekeeping.2.2.2.2 _ _ (by decide)

-- --- C2: the memory_write note branch ---

/-- C2 evaluated on the failing input: every invocation of `memory_write`
with target `note` throws (the model returns the `thrown` outcome), whether
or not a filename is supplied — the `execute` body never destructures
`filename` from `params`, so the guard `if (!filename)` itself raises a
`ReferenceError` instead of returning the `"Error: ..."` tool result the
specification describes. -/
theorem claim_C2_note_throws (fs : Str → Option Str)
    (memoryFile dailyFile ts sid content : Str) (mode : Option WriteMode)
    (fname : Option Str) :
    memoryWriteExecute fs memoryFile dailyFile ts sid
      ⟨.note, content, mode, fname⟩ =
      .thrown (chars "ReferenceError: filename is not defined") := rfl

-- --- C3: scanSession null returns ---

/-- C3: `scanSession` yields nothing when the first line fails to parse, when
the parsed header has no timestamp, and — for every possible remainder of the
file, i.e. without processing further lines — when the header timestamp is
older than 24 hours before `now`. -/
theorem claim_C3_scanSession_null :
    (∀ (now : Int) (rest : List LogLine), scanSession now (none :: rest) = none) ∧
    (∀ (now : Int) (hd : LogEntry) (rest : List LogLine),
      hd.timestamp = none → scanSession now (some hd :: rest) = none) ∧
    (∀ (now : Int) (hd : LogEntry) (rest : List LogLine) (t : Int),
      hd.timestamp = some t → t < now - lookbackMs →
      scanSession now (some hd :: rest) = none) := by
  refine ⟨fun now rest => rfl, ?_, ?_⟩
  · intro now hd rest h
    simp [scanSession, h]
  · intro now hd rest t h hlt
    simp [scanSession, h, hlt]

/-- Witness for C3: the three null-returning shapes at concrete inputs — an
unparseable first line, a header with no timestamp, and a header 48 hours old
(now = 0, timestamp = -172800000 ms). -/
theorem claim_C3_scanSession_null_witness :
    scanSession 0 [none] = none ∧
    scanSession 0 [some ⟨none, none, none, none, none, none, none, none⟩] =
      none ∧
    scanSession 0
      [some ⟨some (-172800000), none, none, none, none, none, none, none⟩] =
      none :=
  ⟨claim_C3_scanSession_null.1 0 [],
   claim_C3_scanSession_null.2.1 0 _ [] rfl,
   claim_C3_scanSession_null.2.2 0 _ [] (-172800000) rfl (by decide)⟩

-- --- C7: the scratchpad section keeps exactly the open items ---

theorem matchChecklistLine_none_of_ws {l : Str}
    (h : ∀ c ∈ l, isWsChar c = true) : matchChecklistLine l = none := by
  cases hm : matchChecklistLine l with
  | none => rfl
  | some pr =>
    obtain ⟨cb, text⟩ := pr
    obtain ⟨hl, _⟩ := matchChecklistLine_inv hm
    have : isWsChar '-' = true := h '-' (by rw [hl]; exact List.mem_cons_self _ _)
    exact absurd this (by decide)

theorem parseLinesAux_all_none :
    ∀ (lines : List Str), (∀ l ∈ lines, matchChecklistLine l = none) →
      ∀ prev, parseLinesAux prev lines = [] := by
  intro lines
  induction lines with
  | nil => intro _ _; rfl
  | cons l ls ih =>
    intro h prev
    rw [parseLinesAux_cons_none _ _ _ (h l (List.mem_cons_self _ _))]
    exact ih (fun m hm => h m (List.mem_cons_of_mem _ hm)) (some l)

theorem parseScratchpad_nil_of_trim_nil {content : Str}
    (h : trim content = []) : parseScratchpad content = [] := by
  unfold parseScratchpad
  apply parseLinesAux_all_none
  intro l hl
  apply matchChecklistLine_none_of_ws
  intro c hc
  exact all_ws_of_trim_eq_nil h c (mem_of_mem_splitOnChar hl c hc)

theorem scratchpadSection_some {c : Str} (h1 : trim c ≠ [])
    (h2 : (parseScratchpad c).filter (fun i => !i.done) ≠ []) :
    scratchpadSection (some c) =
      some (chars "## SCRATCHPAD.md (working context)\n\n" ++
        serializeScratchpad ((parseScratchpad c).filter (fun i => !i.done))) := by
  simp only [scratchpadSection]
  rw [if_pos h1]
  simp only [if_pos h2]

/-- C7: when every parsed item of the checklist content is done (or the
content parses to no items at all), `buildMemoryContext`'s scratchpad section
is absent; when at least one open item exists, the section is present and its
body is the re-serialization of exactly the open (`done == false`) items —
the done items are filtered out. -/
theorem claim_C7_open_items_only (content : Str) :
    ((parseScratchpad content).filter (fun i => !i.done) = [] →
      scratchpadSection (some content) = none) ∧
    ((parseScratchpad content).filter (fun i => !i.done) ≠ [] →
      scratchpadSection (some content) =
        some (chars "## SCRATCHPAD.md (working context)\n\n" ++
          serializeScratchpad
            ((parseScratchpad content).filter (fun i => !i.done)))) := by
  constructor
  · intro h
    simp only [scratchpadSection]
    by_cases ht : trim content = []
    · rw [if_neg (by simpa using ht)]
    · rw [if_pos ht]
      simp only [h]
      rw [if_neg (by simp)]
  · intro h
    have ht : trim content ≠ [] := by
      intro ht
      rw [parseScratchpad_nil_of_trim_nil ht] at h
      simp at h
    exact scratchpadSection_some ht h

/-- Witness for C7: an all-done checklist contributes nothing, and a mixed
checklist contributes exactly its open item. -/
theorem claim_C7_open_items_only_witness :
    scratchpadSection (some (chars "- [x] Done task")) = none ∧
    scratchpadSection (some (chars "- [ ] Open\n- [x] Done")) =
      some (chars "## SCRATCHPAD.md (working context)\n\n" ++
        serializeScratchpad
          ((parseScratchpad (chars "- [ ] Open\n- [x] Done")).filter
            (fun i => !i.done))) :=
  ⟨(claim_C7_open_items_only (chars "- [x] Done task")).1 (by decide),
   (claim_C7_open_items_only (chars "- [ ] Open\n- [x] Done")).2 (by decide)⟩

-- --- C6: empty context and section ordering ---

theorem sectionIfContent_present {title c : Str} (h : trim c ≠ []) :
    sectionIfContent title (some c) =
      some (chars "## " ++ title ++ chars "\n\n" ++ trim c) := by
  simp only [sectionIfContent]
  rw [if_pos h]

theorem filterMap_eq_map_of_some {α β : Type} (f : α → Option β) (g : α → β) :
    ∀ (l : List α), (∀ a ∈ l, f a = some (g a)) → l.filterMap f = l.map g := by
  intro l
  induction l with
  | nil => intro _; rfl
  | cons a t ih =>
    intro h
    rw [List.filterMap_cons, h a (List.mem_cons_self _ _), List.map_cons,
      ih (fun b hb => h b (List.mem_cons_of_mem _ hb))]

/-- C6: `buildMemoryContext` returns the empty string on an empty memory root
(every read yields nothing), and whenever every configured context file, the
long-term file, the checklist (with at least one open item), today's log and
yesterday's log are present and non-blank, the output is exactly the
`# Memory` heading followed by the sections in that fixed order, joined by
the `---` separator. -/
theorem claim_C6_context_order :
    (∀ (config : MemoryConfig) (today yesterday : Str),
      buildMemoryContext (fun _ => none) config today yesterday = []) ∧
    (∀ (fs : Str → Option Str) (config : MemoryConfig) (today yesterday : Str),
      (∀ name ∈ config.contextFiles,
        ∃ c, fs (pjoin config.memoryDir name) = some c ∧ trim c ≠ []) →
      (∃ mc, fs config.memoryFile = some mc ∧ trim mc ≠ []) →
      (∃ sc, fs config.scratchpadFile = some sc ∧ trim sc ≠ [] ∧
        (parseScratchpad sc).filter (fun i => !i.done) ≠ []) →
      (∃ tc, fs (dailyPath config.dailyDir today) = some tc ∧ trim tc ≠ []) →
      (∃ yc, fs (dailyPath config.dailyDir yesterday) = some yc ∧
        trim yc ≠ []) →
      buildMemoryContext fs config today yesterday =
        chars "# Memory\n\n" ++ joinSections
          (config.contextFiles.map (fun name =>
            chars "## " ++ name ++ chars "\n\n" ++
              trim ((fs (pjoin config.memoryDir name)).getD [])) ++
           [chars "## " ++ chars "MEMORY.md (long-term)" ++ chars "\n\n" ++
              trim ((fs config.memoryFile).getD []),
            chars "## SCRATCHPAD.md (working context)\n\n" ++
              serializeScratchpad
                ((parseScratchpad ((fs config.scratchpadFile).getD [])).filter
                  (fun i => !i.done)),
            chars "## " ++ (chars "Daily log: " ++ today ++ chars " (today)") ++
              chars "\n\n" ++ trim ((fs (dailyPath config.dailyDir today)).getD []),
            chars "## " ++
              (chars "Daily log: " ++ yesterday ++ chars " (yesterday)") ++
              chars "\n\n" ++
              trim ((fs (dailyPath config.dailyDir yesterday)).getD [])])) := by
  constructor
  · intro config today yesterday
    unfold buildMemoryContext contextSections
    simp [sectionIfContent, scratchpadSection]
  · intro fs config today yesterday hctx hlt hsp htd hyd
    obtain ⟨mc, hmc, hmct⟩ := hlt
    obtain ⟨sc, hsc, hsct, hscopen⟩ := hsp
    obtain ⟨tc, htc, htct⟩ := htd
    obtain ⟨yc, hyc, hyct⟩ := hyd
    have hctx' : ∀ name ∈ config.contextFiles,
        sectionIfContent name (fs (pjoin config.memoryDir name)) =
          some (chars "## " ++ name ++ chars "\n\n" ++
            trim ((fs (pjoin config.memoryDir name)).getD [])) := by
      intro name hn
      obtain ⟨c, hc, hct⟩ := hctx name hn
      rw [hc, sectionIfContent_present hct]
      rfl
    unfold buildMemoryContext contextSections
    rw [filterMap_eq_map_of_some _ _ _ hctx', hmc, hsc, htc, hyc,
      sectionIfContent_present hmct, sectionIfContent_present htct,
      sectionIfContent_present hyct, scratchpadSection_some hsct hscopen]
    rw [if_neg (by simp)]
    simp [Option.toList]

/-- A concrete read model for the C6 witness: four files under `/m`. -/
def witnessFs : Str → Option Str := fun p =>
  if p = chars "/m/MEMORY.md" then some (chars "facts")
  else if p = chars "/m/SCRATCHPAD.md" then some (chars "- [ ] open item")
  else if p = chars "/m/daily/2026-02-18.md" then some (chars "today notes")
  else if p = chars "/m/daily/2026-02-17.md" then some (chars "yday notes")
  else none

/-- The configuration used by the C6 witness. -/
def witnessConfig : MemoryConfig :=
  ⟨chars "/m", chars "/m/MEMORY.md", chars "/m/SCRATCHPAD.md",
    chars "/m/daily", chars "/m/notes", [], false⟩

set_option maxRecDepth 4000 in
/-- Witness for C6: a fully populated memory root produces the sections in
the specified order with the fixed separator and heading. -/
theorem claim_C6_context_order_witness :
    buildMemoryContext witnessFs witnessConfig (chars "2026-02-18")
      (chars "2026-02-17") =
    chars ("# Memory\n\n## MEMORY.md (long-term)\n\nfacts\n\n---\n\n" ++
      "## SCRATCHPAD.md (working context)\n\n# Scratchpad\n\n" ++
      "- [ ] open item\n\n\n---\n\n## Daily log: 2026-02-18 (today)\n\n" ++
      "today notes\n\n---\n\n## Daily log: 2026-02-17 (yesterday)\n\n" ++
      "yday notes") := by
  rw [claim_C6_context_order.2 witnessFs witnessConfig (chars "2026-02-18")
    (chars "2026-02-17") (by intro name hn; simp [witnessConfig] at hn)
    ⟨chars "facts", by decide, by decide⟩
    ⟨chars "- [ ] open item", by decide, by decide, by decide⟩
    ⟨chars "today notes", by decide, by decide⟩
    ⟨chars "yday notes", by decide, by decide⟩]
  decide

-- --- C4: the title rule of scanSession ---

/-- The contribution of one log line to the first-pass title: the name of a
parsed `session_info` entry with a truthy name. -/
def sessionNameOf : LogLine → Option Str
  | some e =>
    if e.entryType = some (chars "session_info") ∧ truthyStr e.name then
      some (e.name.getD [])
    else none
  | none => none

/-- The name of the last parsed `session_info` entry with a truthy name
among the given lines, if any (the winner of the first pass). -/
def lastSessionName : List LogLine → Option Str
  | [] => none
  | o :: rest => (lastSessionName rest).or (sessionNameOf o)

/-- The test of the second pass: a parsed user-message line. -/
def userMsgEntry : LogLine → Bool
  | some e => isUserMsg e
  | none => false

theorem passOne_fst :
    ∀ (rest : List LogLine) (title : Str) (cost : Int),
      (passOne title cost rest).1 = (lastSessionName rest).getD title := by
  intro rest
  induction rest with
  | nil => intro title cost; rfl
  | cons o rest ih =>
    intro title cost
    cases o with
    | none =>
      show (passOne title cost rest).1 =
        ((lastSessionName rest).or (sessionNameOf none)).getD title
      rw [show sessionNameOf none = none from rfl, Option.or_none]
      exact ih title cost
    | some e =>
      simp only [passOne, lastSessionName, sessionNameOf]
      rw [ih]
      cases hl : lastSessionName rest with
      | some m => simp
      | none =>
        by_cases hc : e.entryType = some (chars "session_info") ∧
          truthyStr e.name = true
        · rw [if_pos hc, if_pos hc]
          simp
        · rw [if_neg hc, if_neg hc]
          simp

theorem passTwo_eq_find :
    ∀ (file : List LogLine), passTwo file =
      (match file.find? userMsgEntry with
       | some (some e) => titleFromContent e.msgContent
       | _ => []) := by
  intro file
  induction file with
  | nil => rfl
  | cons o rest ih =>
    cases o with
    | none =>
      rw [show passTwo (none :: rest) = passTwo rest from rfl,
        List.find?_cons_of_neg _ (by simp [userMsgEntry])]
      exact ih
    | some e =>
      by_cases hu : isUserMsg e = true
      · rw [show passTwo (some e :: rest) =
            (if isUserMsg e then titleFromContent e.msgContent
             else passTwo rest) from rfl,
          if_pos hu,
          List.find?_cons_of_pos _ (show userMsgEntry (some e) = true from hu)]
      · rw [show passTwo (some e :: rest) =
            (if isUserMsg e then titleFromContent e.msgContent
             else passTwo rest) from rfl,
          if_neg hu,
          List.find?_cons_of_neg _
            (show ¬userMsgEntry (some e) = true from hu)]
        exact ih

theorem lastSessionName_ne_nil :
    ∀ (l : List LogLine) (n : Str), lastSessionName l = some n → n ≠ [] := by
  intro l
  induction l with
  | nil =>
    intro n h
    exact absurd h (by simp [lastSessionName])
  | cons o rest ih =>
    intro n h
    simp only [lastSessionName] at h
    cases hl : lastSessionName rest with
    | some m =>
      rw [hl] at h
      rw [show (some m).or (sessionNameOf o) = some m from rfl] at h
      injection h with h
      rw [← h]
      exact ih m hl
    | none =>
      rw [hl, Option.none_or] at h
      cases o with
      | none => exact absurd h (by simp [sessionNameOf])
      | some e =>
        simp only [sessionNameOf] at h
        split at h
        · rename_i hc
          injection h with h
          obtain ⟨_, hty⟩ := hc
          cases hn : e.name with
          | none =>
            rw [hn] at hty
            exact absurd hty (by simp [truthyStr])
          | some s =>
            rw [hn] at hty h
            have hs : s ≠ [] := by simpa [truthyStr] using hty
            rw [← h]
            simpa using hs
        · exact absurd h (by simp)

/-- C4 (amended): for every accepted session log, (a) if any `session_info`
entry with a truthy name appears among the lines after the header, the title
is the name of the last such entry, regardless of user messages; (b)
otherwise the title is derived from the first user-message line of the whole
file — the string payload, or the text of the first `"text"`-typed part of a
list payload, truncated to 80 characters — when that truncated text is
non-empty; if the truncated text is empty, or no user message yields one, the
title is exactly `"(untitled)"`. -/
theorem claim_C4_title_amended (now : Int) (file : List LogLine)
    (info : SessionInfo) (h : scanSession now file = some info) :
    (∀ n, lastSessionName file.tail = some n → info.title = n) ∧
    (lastSessionName file.tail = none →
      (∀ e : LogEntry, file.find? userMsgEntry = some (some e) →
        (titleFromContent e.msgContent ≠ [] →
          info.title = titleFromContent e.msgContent) ∧
        (titleFromContent e.msgContent = [] →
          info.title = chars "(untitled)")) ∧
      (file.find? userMsgEntry = none → info.title = chars "(untitled)")) := by
  cases file with
  | nil => exact absurd h (by simp [scanSession])
  | cons hd rest =>
  cases hd with
  | none => exact absurd h (by simp [scanSession])
  | some header =>
  simp only [scanSession] at h
  by_cases hstale : header.timestamp.isSome = true ∧
      header.timestamp.getD 0 < now - lookbackMs
  · rw [if_pos hstale] at h
    exact absurd h (by simp)
  · rw [if_neg hstale] at h
    by_cases hts : header.timestamp.isSome = true
    · rw [if_pos hts] at h
      injection h with h
      have htitle :
          (if (if (passOne [] 0 rest).1 = []
               then passTwo (some header :: rest)
               else (passOne [] 0 rest).1) = []
           then chars "(untitled)"
           else (if (passOne [] 0 rest).1 = []
                 then passTwo (some header :: rest)
                 else (passOne [] 0 rest).1)) = info.title :=
        congrArg SessionInfo.title h
      rw [passOne_fst rest [] 0] at htitle
      constructor
      · intro n hn
        rw [show (some header :: rest).tail = rest from rfl] at hn
        rw [hn, Option.getD_some] at htitle
        have hne0 : ¬(n = []) := lastSessionName_ne_nil rest n hn
        rw [if_neg hne0] at htitle
        rw [if_neg hne0] at htitle
        exact htitle.symm
      · intro hnone
        rw [show (some header :: rest).tail = rest from rfl] at hnone
        rw [hnone, Option.getD_none] at htitle
        rw [if_pos rfl] at htitle
        have hpass := passTwo_eq_find (some header :: rest)
        constructor
        · intro e hfind
          rw [hfind] at hpass
          simp only [] at hpass
          constructor
          · intro hne
            rw [hpass] at htitle
            rw [if_neg hne] at htitle
            exact htitle.symm
          · intro heq
            rw [hpass, heq] at htitle
            rw [if_pos rfl] at htitle
            exact htitle.symm
        · intro hfind
          rw [hfind] at hpass
          simp only [] at hpass
          rw [hpass] at htitle
          rw [if_pos rfl] at htitle
          exact htitle.symm
    · rw [if_neg hts] at h
      exact absurd h (by simp)

/-- Counterexample to C4 as stated, at two concrete accepted logs. First: a
log whose only line is a header that is itself a `session_info` entry named
`X` — the claim as stated promises the title `X`, but the first pass only
scans the lines after the header, so the title is `(untitled)`. Second: a log
whose first user message has the empty string as payload — the claim promises
the empty truncation as title, but the code replaces an empty title with
`(untitled)`. -/
theorem claim_C4_counterexample :
    ((scanSession 0 [some ⟨some 0, none, none, some (chars "session_info"),
        some (chars "X"), none, none, none⟩]).map SessionInfo.title =
      some (chars "(untitled)") ∧ chars "(untitled)" ≠ chars "X") ∧
    ((scanSession 0 [some ⟨some 0, none, none, none, none, none, none, none⟩,
        some ⟨none, none, none, some (chars "message"), none,
          some (chars "user"), some (.str []), none⟩]).map SessionInfo.title =
      some (chars "(untitled)") ∧
      chars "(untitled)" ≠ List.take 80 []) := by decide

/-- Witness for C4: a log with one `session_info` entry named `Build` after
the header scans to a record titled `Build`, via part (a) of the claim. -/
theorem claim_C4_title_amended_witness :
    (⟨0, chars "Build", false, none, [], 0⟩ : SessionInfo).title =
      chars "Build" :=
  (claim_C4_title_amended 0
    [some ⟨some 0, none, none, none, none, none, none, none⟩,
     some ⟨none, none, none, some (chars "session_info"), some (chars "Build"),
       none, none, none⟩]
    ⟨0, chars "Build", false, none, [], 0⟩ (by decide)).1
    (chars "Build") (by decide)

-- --- C8: searchMemory ---

theorem scanContentLines_length_le (needle : Str) (maxResults : Nat)
    (dn : Str) :
    ∀ (lines : List Str) (i : Nat) (acc : List SearchHit),
      acc.length ≤ maxResults →
      (scanContentLines needle maxResults dn i lines acc).length ≤
        maxResults := by
  intro lines
  induction lines with
  | nil => intro i acc h; exact h
  | cons l ls ih =>
    intro i acc h
    simp only [scanContentLines]
    by_cases hlt : acc.length < maxResults
    · rw [if_pos hlt]
      apply ih
      by_cases hhit : hasInfix (lowerStr l) needle = true
      · rw [if_pos hhit]
        simp only [List.length_append, List.length_singleton]
        omega
      · rw [if_neg hhit]
        exact h
    · rw [if_neg hlt]
      exact h

theorem searchFile_length_le (needle : Str) (maxResults : Nat)
    (st : SearchResult) (dn : Str) (content : Option Str)
    (h : st.lineResults.length ≤ maxResults) :
    (searchFile needle maxResults st dn content).lineResults.length ≤
      maxResults := by
  cases content with
  | none => exact h
  | some c =>
    simp only [searchFile]
    by_cases hc : c = []
    · rw [if_pos hc]
      exact h
    · rw [if_neg hc]
      exact scanContentLines_length_le needle maxResults dn (splitLines c) 0
        st.lineResults h

theorem searchDirFiles_length_le (needle : Str) (maxResults : Nat)
    (pfx : Str) :
    ∀ (files : List (Str × Option Str)) (st : SearchResult),
      st.lineResults.length ≤ maxResults →
      (searchDirFiles needle maxResults pfx st files).lineResults.length ≤
        maxResults := by
  intro files
  induction files with
  | nil => intro st h; exact h
  | cons f rest ih =>
    intro st h
    obtain ⟨name, c⟩ := f
    simp only [searchDirFiles]
    by_cases hfull : st.lineResults.length ≥ maxResults
    · rw [if_pos hfull]
      exact h
    · rw [if_neg hfull]
      exact ih _ (searchFile_length_le needle maxResults st
        (displayName pfx name) c h)

theorem searchDirFiles_stops (needle : Str) (maxResults : Nat) (pfx : Str)
    (st : SearchResult) (files : List (Str × Option Str))
    (h : st.lineResults.length ≥ maxResults) :
    searchDirFiles needle maxResults pfx st files = st := by
  cases files with
  | nil => rfl
  | cons f rest =>
    obtain ⟨name, c⟩ := f
    simp only [searchDirFiles]
    rw [if_pos h]

theorem scanContentLines_mem (needle : Str) (maxResults : Nat) (dn : Str) :
    ∀ (lines : List Str) (i : Nat) (acc : List SearchHit) (r : SearchHit),
      r ∈ scanContentLines needle maxResults dn i lines acc →
      r ∈ acc ∨ ∃ j l, lines[j]? = some l ∧
        r = ⟨dn, i + j + 1, trimEnd l⟩ ∧
        hasInfix (lowerStr l) needle = true := by
  intro lines
  induction lines with
  | nil =>
    intro i acc r h
    exact Or.inl h
  | cons l ls ih =>
    intro i acc r h
    simp only [scanContentLines] at h
    by_cases hlt : acc.length < maxResults
    · rw [if_pos hlt] at h
      rcases ih (i + 1) _ r h with h' | ⟨j, l', hj, hr, hinf⟩
      · by_cases hhit : hasInfix (lowerStr l) needle = true
        · rw [if_pos hhit] at h'
          rcases List.mem_append.mp h' with h'' | h''
          · exact Or.inl h''
          · refine Or.inr ⟨0, l, by simp, ?_, hhit⟩
            simpa using h''
        · rw [if_neg hhit] at h'
          exact Or.inl h'
      · refine Or.inr ⟨j + 1, l', by simpa using hj, ?_, hinf⟩
        rw [hr]
        have : i + 1 + j + 1 = i + (j + 1) + 1 := by omega
        rw [this]
    · rw [if_neg hlt] at h
      exact Or.inl h

theorem searchFile_mem (needle : Str) (maxResults : Nat) (st : SearchResult)
    (dn : Str) (content : Option Str) (r : SearchHit)
    (h : r ∈ (searchFile needle maxResults st dn content).lineResults) :
    r ∈ st.lineResults ∨ ∃ c, content = some c ∧ ∃ j l,
      (splitLines c)[j]? = some l ∧ r = ⟨dn, j + 1, trimEnd l⟩ ∧
      hasInfix (lowerStr l) needle = true := by
  cases content with
  | none => exact Or.inl h
  | some c =>
    simp only [searchFile] at h
    by_cases hc : c = []
    · rw [if_pos hc] at h
      exact Or.inl h
    · rw [if_neg hc] at h
      rcases scanContentLines_mem needle maxResults dn (splitLines c) 0 _ r h
        with h' | ⟨j, l, hj, hr, hinf⟩
      · exact Or.inl h'
      · exact Or.inr ⟨c, rfl, j, l, hj, by simpa using hr, hinf⟩

theorem searchDirFiles_mem (needle : Str) (maxResults : Nat) (pfx : Str) :
    ∀ (files : List (Str × Option Str)) (st : SearchResult) (r : SearchHit),
      r ∈ (searchDirFiles needle maxResults pfx st files).lineResults →
      r ∈ st.lineResults ∨ ∃ name c, (name, some c) ∈ files ∧
        r.file = displayName pfx name ∧ ∃ j l,
        (splitLines c)[j]? = some l ∧ r.line = j + 1 ∧ r.text = trimEnd l ∧
        hasInfix (lowerStr l) needle = true := by
  intro files
  induction files with
  | nil =>
    intro st r h
    exact Or.inl h
  | cons f rest ih =>
    intro st r h
    obtain ⟨name, c⟩ := f
    simp only [searchDirFiles] at h
    by_cases hfull : st.lineResults.length ≥ maxResults
    · rw [if_pos hfull] at h
      exact Or.inl h
    · rw [if_neg hfull] at h
      rcases ih _ r h with h' | ⟨name', c', hmem, hfile, j, l, hj, hline, htext, hinf⟩
      · rcases searchFile_mem needle maxResults st (displayName pfx name) c r h'
          with h'' | ⟨c', hc', j, l, hj, hr, hinf⟩
        · exact Or.inl h''
        · refine Or.inr ⟨name, c', by rw [← hc']; exact List.mem_cons_self _ _,
            ?_, j, l, hj, ?_, ?_, hinf⟩ <;> rw [hr]
      · exact Or.inr ⟨name', c', List.mem_cons_of_mem _ hmem, hfile, j, l, hj,
          hline, htext, hinf⟩

theorem mem_insertByName {x y : Str × Option Str} :
    ∀ {l : List (Str × Option Str)}, x ∈ insertByName y l → x = y ∨ x ∈ l := by
  intro l
  induction l with
  | nil =>
    intro h
    simp only [insertByName] at h
    exact Or.inl (List.mem_singleton.mp h)
  | cons a t ih =>
    intro h
    simp only [insertByName] at h
    by_cases hle : strLe y.1 a.1 = true
    · rw [if_pos hle] at h
      rcases List.mem_cons.mp h with h | h
      · exact Or.inl h
      · exact Or.inr h
    · rw [if_neg hle] at h
      rcases List.mem_cons.mp h with h | h
      · exact Or.inr (h ▸ List.mem_cons_self a t)
      · rcases ih h with h' | h'
        · exact Or.inl h'
        · exact Or.inr (List.mem_cons_of_mem a h')

theorem mem_sortByName {x : Str × Option Str} :
    ∀ {l : List (Str × Option Str)}, x ∈ sortByName l → x ∈ l := by
  intro l
  induction l with
  | nil => intro h; simp [sortByName] at h
  | cons a t ih =>
    intro h
    simp only [sortByName] at h
    rcases mem_insertByName h with h' | h'
    · exact h' ▸ List.mem_cons_self a t
    · exact List.mem_cons_of_mem a (ih h')

theorem mem_mdFiles {x : Str × Option Str} {dir : List (Str × Option Str)}
    (h : x ∈ mdFiles dir) : x ∈ dir ∧ endsWithStr x.1 (chars ".md") = true := by
  have h' := mem_sortByName h
  exact ⟨(List.mem_filter.mp h').1, (List.mem_filter.mp h').2⟩

/-- C8: `searchMemory` (i) never records more line results than the limit,
(ii) every recorded line result comes from a file whose name ends in `.md`
(so a `.json` file never contributes a line result), is 1-indexed (the hit's
line number is the successor of the 0-based index of that line in the file's
content), is right-trimmed, and actually contains the lowercased query; and
(iii) the per-directory scan stops immediately once the limit has been
reached. -/
theorem claim_C8_searchMemory (memRoot daily notes : List (Str × Option Str))
    (query : Str) (maxResults : Nat) :
    (searchMemory memRoot daily notes query maxResults).lineResults.length ≤
        maxResults ∧
    (∀ r ∈ (searchMemory memRoot daily notes query maxResults).lineResults,
      1 ≤ r.line ∧
      ∃ pfx dir name content,
        ((pfx, dir) = (([] : Str), memRoot) ∨
          (pfx, dir) = (chars "daily", daily) ∨
          (pfx, dir) = (chars "notes", notes)) ∧
        (name, some content) ∈ dir ∧
        endsWithStr name (chars ".md") = true ∧
        r.file = displayName pfx name ∧
        ∃ l, (splitLines content)[r.line - 1]? = some l ∧
          r.text = trimEnd l ∧
          hasInfix (lowerStr l) (lowerStr query) = true) ∧
    (∀ (needle pfx : Str) (st : SearchResult)
        (files : List (Str × Option Str)),
      st.lineResults.length ≥ maxResults →
      searchDirFiles needle maxResults pfx st files = st) := by
  refine ⟨?_, ?_, ?_⟩
  · exact searchDirFiles_length_le _ _ _ _ _
      (searchDirFiles_length_le _ _ _ _ _
        (searchDirFiles_length_le _ _ _ _ _ (Nat.zero_le _)))
  · intro r hr
    have step : ∀ (pfx : Str) (dir : List (Str × Option Str))
        (st : SearchResult),
        r ∈ (searchDirFiles (lowerStr query) maxResults pfx st
          (mdFiles dir)).lineResults →
        r ∈ st.lineResults ∨ (1 ≤ r.line ∧ ∃ name content,
          (name, some content) ∈ dir ∧
          endsWithStr name (chars ".md") = true ∧
          r.file = displayName pfx name ∧
          ∃ l, (splitLines content)[r.line - 1]? = some l ∧
            r.text = trimEnd l ∧
            hasInfix (lowerStr l) (lowerStr query) = true) := by
      intro pfx dir st hmem
      rcases searchDirFiles_mem _ _ _ _ _ _ hmem
        with h' | ⟨name, c, hmemf, hfile, j, l, hj, hline, htext, hinf⟩
      · exact Or.inl h'
      · obtain ⟨hdir, hmd⟩ := mem_mdFiles hmemf
        refine Or.inr ⟨by omega, name, c, hdir, hmd, hfile, l, ?_, htext, hinf⟩
        rw [hline]
        simpa using hj
    rcases step (chars "notes") notes _ hr with hr' | hok
    · rcases step (chars "daily") daily _ hr' with hr'' | hok
      · rcases step [] memRoot _ hr'' with hr''' | hok
        · simp at hr'''
        · obtain ⟨h1, name, content, rest⟩ := hok
          exact ⟨h1, [], memRoot, name, content, Or.inl rfl, rest⟩
      · obtain ⟨h1, name, content, rest⟩ := hok
        exact ⟨h1, chars "daily", daily, name, content, Or.inr (Or.inl rfl),
          rest⟩
    · obtain ⟨h1, name, content, rest⟩ := hok
      exact ⟨h1, chars "notes", notes, name, content, Or.inr (Or.inr rfl),
        rest⟩
  · intro needle pfx st files h
    exact searchDirFiles_stops needle maxResults pfx st files h

/-- Witness for C8: in a root holding `a.md` and `b.json` with the same
matching text, the provenance part of the claim applies to the single
recorded hit, which comes from `a.md`. -/
theorem claim_C8_searchMemory_witness :
    1 ≤ (⟨chars "a.md", 1, chars "hello q"⟩ : SearchHit).line ∧
    ∃ pfx dir name content,
      ((pfx, dir) = (([] : Str),
          [(chars "a.md", some (chars "hello q")),
           (chars "b.json", some (chars "q"))]) ∨
        (pfx, dir) = (chars "daily", ([] : List (Str × Option Str))) ∨
        (pfx, dir) = (chars "notes", ([] : List (Str × Option Str)))) ∧
      (name, some content) ∈ dir ∧
      endsWithStr name (chars ".md") = true ∧
      (⟨chars "a.md", 1, chars "hello q"⟩ : SearchHit).file =
        displayName pfx name ∧
      ∃ l, (splitLines content)[
          (⟨chars "a.md", 1, chars "hello q"⟩ : SearchHit).line - 1]? =
            some l ∧
        (⟨chars "a.md", 1, chars "hello q"⟩ : SearchHit).text = trimEnd l ∧
        hasInfix (lowerStr l) (lowerStr (chars "q")) = true :=
  (claim_C8_searchMemory
    [(chars "a.md", some (chars "hello q")), (chars "b.json", some (chars "q"))]
    [] [] (chars "q") 5).2.1 ⟨chars "a.md", 1, chars "hello q"⟩ (by decide)

end PiMem
